import Mathlib

/-!
Verification development for the labelmaker annotation tool (src/main.py).

The program is an interactive polygon-annotation tool: the user draws a
polyline (the point buffer `x`/`y`), commits it as a polygon (`mkpoly`),
deletes polygons under the pointer (`rmpoly`), undoes the last deletion
(`undo`), recolors (reclassifies) polygons under the pointer on digit
keys (`set_class`), and exports a per-cell class-label raster
(`create_output_creates` and `export`).

The shallow embedding below translates the state-mutating handlers of the
`plotter` class into pure functions on an explicit state record.
Point-in-polygon containment is performed by the plotting library
(matplotlib `Polygon.contains` / `Path.contains_points`), an external
collaborator; it is modelled as an explicit parameter
`geom : List (ℚ × ℚ) → ℚ × ℚ → Bool` giving, for a polygon's vertex list,
the containment test for a query point.  Python object identity (the `is`
check in `undo`, and `list.remove` which compares by identity for these
objects) is modelled by giving every created polygon a fresh numeric `id`
drawn from a counter in the state.

The colormap `tab10` has ten pairwise distinct colors; `cmap.index` on a
polygon's face color therefore recovers the index the color was created
from, so a polygon's face color is modelled directly as that index
(`colorIdx`).
-/

deriving instance DecidableEq for Except

namespace Labelmaker

/-- A committed polygon: `id` models Python object identity (fresh per
creation), `colorIdx` the index into `cmap` of its face color, and
`vertices` the vertex list `zip(x, y)` captured at commit time. -/
structure Poly where
  id : Nat
  colorIdx : Nat
  vertices : List (ℚ × ℚ)
deriving DecidableEq

/-- A pointer/key event as seen by the handlers: data coordinates,
whether `event.inaxes` equals the drawing axes, the mouse button, and
whether a toolbar mode (pan/zoom) is active. -/
structure Event where
  x : ℚ
  y : ℚ
  inAxes : Bool
  button : Nat
  toolbarActive : Bool
deriving DecidableEq

/-- A pick event: whether `event.artist` is the in-progress line, and the
mouse position of the pick. -/
structure PickEvent where
  onLine : Bool
  x : ℚ
  y : ℚ
deriving DecidableEq

/-- The mutable state of a `plotter` instance.  `current_point` is an
attribute that is only ever created by assignment in `onpick`; the outer
`Option` layer models "attribute not yet assigned" (reading it then is an
`AttributeError`), the inner layer the Python value (`None` or a triple).
`nextId` is the identity counter for freshly created polygons. -/
structure PState where
  x : List ℚ
  y : List ℚ
  threshold : ℚ
  polys : List Poly
  last_removed : Option Poly
  pick : Option Nat
  current_poly_class : Nat
  current_point : Option (Option (ℚ × ℚ × Nat))
  nextId : Nat
deriving DecidableEq

/-- State after `plotter.__init__`: empty buffers, no polygons, no
last-removed, no pick, class selector 0, `current_point` never assigned. -/
def initState (t : ℚ) : PState :=
  { x := [], y := [], threshold := t, polys := [], last_removed := none,
    pick := none, current_poly_class := 0, current_point := none, nextId := 0 }

/-- `plotter.clear`: empty the point buffer. -/
def clear (s : PState) : PState := { s with x := [], y := [] }

/-- `plotter.mkpoly`: if the buffer is empty do nothing; otherwise create
a polygon from `zip(x, y)` with face color `cmap[current_poly_class]`,
append it to `polys`, and clear the buffer. -/
def mkpoly (s : PState) : PState :=
  if s.x.length = 0 then s
  else
    clear { s with
            polys := s.polys ++
              [{ id := s.nextId, colorIdx := s.current_poly_class,
                 vertices := s.x.zip s.y }],
            nextId := s.nextId + 1 }

/-- Python `list.remove(poly)`: remove the first element identical to the
given object, modelled as removal of the first element with the given id. -/
def erasePolyId : List Poly → Nat → List Poly
  | [], _ => []
  | p :: ps, i => if p.id = i then ps else p :: erasePolyId ps i

/-- The loop body of `plotter.rmpoly`: `for poly in self.polys` is an
index-based iterator, so removing the current element shifts the list and
the next iteration skips one element.  The state is the current list, the
iterator index `i`, and the current `last_removed`.  Fuel bounds the
number of iterations; the index increases every step, so the initial list
length is always enough fuel. -/
def rmScan (geom : List (ℚ × ℚ) → ℚ × ℚ → Bool) (pos : ℚ × ℚ) :
    Nat → List Poly → Nat → Option Poly → List Poly × Option Poly
  | 0, polys, _, last => (polys, last)
  | fuel + 1, polys, i, last =>
    if h : i < polys.length then
      if geom (polys.get ⟨i, h⟩).vertices pos then
        rmScan geom pos fuel (erasePolyId polys (polys.get ⟨i, h⟩).id) (i + 1)
          (some (polys.get ⟨i, h⟩))
      else
        rmScan geom pos fuel polys (i + 1) last
    else (polys, last)

/-- `plotter.rmpoly`: ignore events outside the axes, otherwise run the
removal scan over the live polygons. -/
def rmpoly (geom : List (ℚ × ℚ) → ℚ × ℚ → Bool) (s : PState) (ev : Event) :
    PState :=
  if ev.inAxes then
    { s with polys := (rmScan geom (ev.x, ev.y) s.polys.length s.polys 0 s.last_removed).1,
             last_removed := (rmScan geom (ev.x, ev.y) s.polys.length s.polys 0 s.last_removed).2 }
  else s

/-- `plotter.undo`: no-op when nothing was removed, or when the most
recently added live polygon is (identically) the last removed one;
otherwise append the last removed polygon.  The slot is not cleared. -/
def undo (s : PState) : PState :=
  match s.last_removed with
  | none => s
  | some lr =>
    match s.polys.getLast? with
    | some q => if q.id = lr.id then s else { s with polys := s.polys ++ [lr] }
    | none => { s with polys := s.polys ++ [lr] }

/-- `poly.set_facecolor(cmap[int(key) - 1])` for digit key `k`. -/
def recolor (k : Nat) (p : Poly) : Poly := { p with colorIdx := k - 1 }

/-- The loop of `plotter.set_class`: recolor every polygon containing the
event position; the list structure is not mutated. -/
def recolorList (geom : List (ℚ × ℚ) → ℚ × ℚ → Bool) (pos : ℚ × ℚ)
    (k : Nat) : List Poly → List Poly
  | [] => []
  | p :: ps =>
    (if geom p.vertices pos then recolor k p else p) ::
      recolorList geom pos k ps

/-- `plotter.set_class`: recolor every containing live polygon.  The
recoloring is an in-place object mutation in Python, so if the
last-removed slot aliases a live polygon (same identity) its color
changes too; this is modelled by refreshing the slot from the updated
live list when a polygon with the same id is live. -/
def set_class (geom : List (ℚ × ℚ) → ℚ × ℚ → Bool) (k : Nat)
    (pos : ℚ × ℚ) (s : PState) : PState :=
  let polys := recolorList geom pos k s.polys
  let lastR : Option Poly :=
    match s.last_removed with
    | none => none
    | some lr => some ((polys.find? (fun q => q.id == lr.id)).getD lr)
  { s with polys := polys, last_removed := lastR }

/-- The keys bound in `plotter.__init__`: escape, enter, d, u, e and the
digit keys `str(k)` for `k` in `range(1, 10)`. -/
inductive Key where
  | escape
  | enter
  | d
  | u
  | e
  | digit (k : Nat)
deriving DecidableEq

/-- `plotter.complete`: dispatch a key event through the `keys` mapping.
Digits are bound only for 1..9; `e` (export) does not change the state. -/
def complete (geom : List (ℚ × ℚ) → ℚ × ℚ → Bool) (s : PState)
    (key : Key) (ev : Event) : PState :=
  match key with
  | .escape => clear s
  | .enter => mkpoly s
  | .d => rmpoly geom s ev
  | .u => undo s
  | .e => s
  | .digit k => if 1 ≤ k ∧ k ≤ 9 then set_class geom k (ev.x, ev.y) s else s

/-- `plotter.move_point`: move the picked vertex to the release position
and set `current_point` to Python `None`. -/
def move_point (s : PState) (xp yp : ℚ) : PState :=
  match s.current_point with
  | some (some (_, _, idx)) =>
    { s with x := s.x.set idx xp, y := s.y.set idx yp,
             current_point := some none }
  | _ => s

/-- `plotter.onrelease`: if a pick is in progress, read `current_point`
(an `AttributeError`, modelled as `Except.error`, when it was never
assigned), move the vertex when it is truthy, and clear the pick.
Otherwise ignore toolbar-mode, out-of-axes and non-primary-button events,
and append the release position to the point buffer. -/
def onrelease (s : PState) (ev : Event) : Except Unit PState :=
  match s.pick with
  | some _ =>
    match s.current_point with
    | none => .error ()
    | some cp =>
      if cp.isSome then .ok { move_point s ev.x ev.y with pick := none }
      else .ok { s with pick := none }
  | none =>
    if ev.toolbarActive then .ok s
    else if ev.inAxes = false then .ok s
    else if ev.button ≠ 1 then .ok s
    else .ok { s with x := s.x ++ [ev.x], y := s.y ++ [ev.y] }

/-- Modelled from the spec: `utility.closest` is not under src.  Per §4.2
it computes for every candidate vertex the normalized squared distance
((x_i − xp)/dx)² + ((y_i − yp)/dy)², and returns the index of the minimum
together with its distance (the squared form, an equivalent monotonic
normalized metric as §4.2 allows); on an empty candidate sequence it
signals no match. -/
def argminAux : List ℚ → Nat → Nat → ℚ → Nat × ℚ
  | [], _, bi, bd => (bi, bd)
  | d :: rest, i, bi, bd =>
    if d < bd then argminAux rest (i + 1) i d else argminAux rest (i + 1) bi bd

/-- Modelled from the spec: see `argminAux`. -/
def closest (xp yp : ℚ) (xs ys : List ℚ) (dx dy : ℚ) : Option (Nat × ℚ) :=
  match List.zipWith
      (fun xi yi => ((xi - xp) / dx) ^ 2 + ((yi - yp) / dy) ^ 2) xs ys with
  | [] => none
  | d0 :: rest => some (argminAux rest 1 0 d0)

/-- Modelled from the spec: `utility.within_tolerance` is not under src.
Per §4.2 a candidate counts as a hit only if its normalized distance is
below the threshold; with the squared metric of `closest` this is a
comparison against the squared threshold.  The `dx`/`dy` arguments mirror
the call signature in `plotter.onpick`. -/
def within_tolerance (dist2 _dx _dy t : ℚ) : Bool := dist2 < t ^ 2

/-- `plotter.onpick`: only reacts to picks on the in-progress line.  It
sets `self.pick = 1` unconditionally, and assigns `current_point` only
when the nearest vertex is within tolerance.  `dx`/`dy` are the axis
spans delivered by `utility.axis_lengths` (not under src), taken here as
inputs.  When the candidate sequence is empty `closest` signals no match
and no `current_point` assignment happens. -/
def onpick (s : PState) (ev : PickEvent) (dx dy : ℚ) : PState :=
  if ev.onLine then
    match closest ev.x ev.y s.x s.y dx dy with
    | none => { s with pick := some 1 }
    | some (idx, dist2) =>
      if within_tolerance dist2 dx dy s.threshold then
        let cp := some (some (s.x.getD idx 0, s.y.getD idx 0, idx))
        { s with pick := some 1, current_point := cp }
      else { s with pick := some 1 }
  else s

/-- The exported class label of a polygon:
`cmap.index(facecolor) + 1` in `plotter.create_output_creates`. -/
def polyLabel (p : Poly) : Nat := p.colorIdx + 1

/-- The value of one raster cell in `plotter.create_output_creates`: the
output starts at 0 and each polygon, in creation order, overwrites the
cells its path contains with its label, so the per-cell result is a left
fold over the polygon list. -/
def rasterCell (geom : List (ℚ × ℚ) → ℚ × ℚ → Bool) (polys : List Poly)
    (pt : ℚ × ℚ) : Nat :=
  polys.foldl (fun acc p => if geom p.vertices pt then polyLabel p else acc) 0

/-- The full label raster of `plotter.create_output_creates`: a
rows × cols matrix; the containment test for cell (r, c) is evaluated at
the point (c, r), matching `np.c_[py.ravel(), px.ravel()]` which pairs
the sample (column) coordinate first. -/
def raster (geom : List (ℚ × ℚ) → ℚ × ℚ → Bool) (rows cols : Nat)
    (polys : List Poly) : List (List Nat) :=
  (List.range rows).map (fun (r : Nat) =>
    (List.range cols).map (fun (c : Nat) =>
      rasterCell geom polys ((c : ℚ), (r : ℚ))))

/-- The output path of `export(fname, output, prefix)`:
`segyio.create(prefix + fname, ...)` concatenates the prefix with the
full input path as given. -/
def outputPath (pre fname : String) : String := pre ++ fname

/-- Basename of a path: the characters after the last `/`. -/
def basenameOf (fname : String) : String :=
  ⟨fname.data.foldl (fun acc c => if c = '/' then [] else acc ++ [c]) []⟩

/-- Modelled from the spec: §6 describes the output path as
`prefix + basename(input)`; this definition follows the spec's words, to
be compared with `outputPath` from the source. -/
def outputPathSpec (pre fname : String) : String := pre ++ basenameOf fname

/-- States reachable from `__init__` by the installed event handlers:
successful releases, picks, and key presses dispatched by `complete`. -/
inductive Reachable (geom : List (ℚ × ℚ) → ℚ × ℚ → Bool) (t : ℚ) :
    PState → Prop where
  | init : Reachable geom t (initState t)
  | step_release {s s' : PState} {ev : Event} :
      Reachable geom t s → onrelease s ev = .ok s' → Reachable geom t s'
  | step_pick {s : PState} {ev : PickEvent} {dx dy : ℚ} :
      Reachable geom t s → Reachable geom t (onpick s ev dx dy)
  | step_key {s : PState} {k : Key} {ev : Event} :
      Reachable geom t s → Reachable geom t (complete geom s k ev)

/-- States reachable without ever pressing the undo key. -/
inductive ReachableNoUndo (geom : List (ℚ × ℚ) → ℚ × ℚ → Bool) (t : ℚ) :
    PState → Prop where
  | init : ReachableNoUndo geom t (initState t)
  | step_release {s s' : PState} {ev : Event} :
      ReachableNoUndo geom t s → onrelease s ev = .ok s' →
      ReachableNoUndo geom t s'
  | step_pick {s : PState} {ev : PickEvent} {dx dy : ℚ} :
      ReachableNoUndo geom t s → ReachableNoUndo geom t (onpick s ev dx dy)
  | step_key {s : PState} {k : Key} {ev : Event} :
      ReachableNoUndo geom t s → k ≠ Key.u →
      ReachableNoUndo geom t (complete geom s k ev)

/-- A containment oracle used for concrete scenarios: a point is inside a
polygon exactly when it is one of its vertices. -/
def geomMem : List (ℚ × ℚ) → ℚ × ℚ → Bool := fun vs p => decide (p ∈ vs)

/-- A primary-button in-axes release/key event at the given position. -/
def relEv (a b : ℚ) : Event :=
  { x := a, y := b, inAxes := true, button := 1, toolbarActive := false }

section Lemmas

variable (geom : List (ℚ × ℚ) → ℚ × ℚ → Bool)

theorem erasePolyId_sublist (l : List Poly) (i : Nat) :
    (erasePolyId l i).Sublist l := by
  induction l with
  | nil => simp [erasePolyId]
  | cons p ps ih =>
    simp only [erasePolyId]
    split
    · exact List.sublist_cons_self p ps
    · exact ih.cons₂ p

theorem mem_of_mem_erasePolyId {l : List Poly} {i : Nat} {q : Poly}
    (h : q ∈ erasePolyId l i) : q ∈ l :=
  (erasePolyId_sublist l i).subset h

theorem nodup_ids_erasePolyId {l : List Poly} (i : Nat)
    (h : (l.map Poly.id).Nodup) : ((erasePolyId l i).map Poly.id).Nodup :=
  h.sublist ((erasePolyId_sublist l i).map Poly.id)

theorem id_ne_of_mem_erasePolyId {l : List Poly} {i : Nat}
    (h : (l.map Poly.id).Nodup) : ∀ q ∈ erasePolyId l i, q.id ≠ i := by
  induction l with
  | nil => simp [erasePolyId]
  | cons p ps ih =>
    simp only [List.map_cons, List.nodup_cons] at h
    simp only [erasePolyId]
    split
    · rename_i hpi
      intro q hq hqi
      exact h.1 (hpi ▸ hqi ▸ List.mem_map_of_mem Poly.id hq)
    · rename_i hpi
      intro q hq
      rcases List.mem_cons.mp hq with hq | hq
      · exact hq ▸ hpi
      · exact ih h.2 q hq

theorem perm_cons_erasePolyId {l : List Poly} {X : Poly}
    (h : (l.map Poly.id).Nodup) (hX : X ∈ l) :
    l.Perm (X :: erasePolyId l X.id) := by
  induction l with
  | nil => cases hX
  | cons p ps ih =>
    simp only [List.map_cons, List.nodup_cons] at h
    simp only [erasePolyId]
    split
    · rename_i hpi
      have hpX : p = X := by
        rcases List.mem_cons.mp hX with hX | hX
        · exact hX.symm
        · exact absurd (hpi ▸ List.mem_map_of_mem Poly.id hX) h.1
      rw [hpX]
    · rename_i hpi
      have hXps : X ∈ ps := by
        rcases List.mem_cons.mp hX with hX | hX
        · exact absurd (congrArg Poly.id hX.symm) hpi
        · exact hX
      refine ((ih h.2 hXps).cons p).trans ?_
      exact List.Perm.swap X p (erasePolyId ps X.id)

theorem rmScan_no_contains (pos : ℚ × ℚ) :
    ∀ (fuel : Nat) (polys : List Poly) (i : Nat) (last : Option Poly),
    (∀ p ∈ polys, geom p.vertices pos = false) →
    rmScan geom pos fuel polys i last = (polys, last) := by
  intro fuel
  induction fuel with
  | zero => intro polys i last _; rfl
  | succ n ih =>
    intro polys i last h
    simp only [rmScan]
    split
    · rename_i hlt
      rw [h (polys.get ⟨i, hlt⟩) (polys.get_mem i hlt)]
      simp only [Bool.false_eq_true, if_false]
      exact ih polys (i + 1) last h
    · rfl

theorem rmScan_unique (pos : ℚ × ℚ) (X : Poly)
    (hgX : geom X.vertices pos = true) :
    ∀ (fuel : Nat) (polys : List Poly) (i : Nat) (last : Option Poly),
    polys.length - i ≤ fuel →
    (polys.map Poly.id).Nodup →
    X ∈ polys.drop i →
    (∀ p ∈ polys, geom p.vertices pos = true → p = X) →
    rmScan geom pos fuel polys i last = (erasePolyId polys X.id, some X) := by
  intro fuel
  induction fuel with
  | zero =>
    intro polys i last hfuel _ hdrop _
    rw [List.drop_eq_nil_of_le (by omega)] at hdrop
    cases hdrop
  | succ n ih =>
    intro polys i last hfuel hN hdrop huniq
    simp only [rmScan]
    split
    · rename_i hlt
      by_cases hc : geom (polys.get ⟨i, hlt⟩).vertices pos = true
      · simp only [hc, if_true]
        have hpX : polys.get ⟨i, hlt⟩ = X :=
          huniq (polys.get ⟨i, hlt⟩) (polys.get_mem i hlt) hc
        rw [hpX]
        apply rmScan_no_contains
        intro q hq
        cases hgq : geom q.vertices pos with
        | false => rfl
        | true =>
          have hqX : q = X := huniq q (mem_of_mem_erasePolyId hq) hgq
          exact absurd (congrArg Poly.id hqX)
            (id_ne_of_mem_erasePolyId hN q hq)
      · rw [Bool.not_eq_true] at hc
        rw [hc]
        simp only [Bool.false_eq_true, if_false]
        apply ih polys (i + 1) last (by omega) hN ?_ huniq
        have hcons : polys.drop i = polys.get ⟨i, hlt⟩ :: polys.drop (i + 1) :=
          List.drop_eq_getElem_cons hlt
        rw [hcons] at hdrop
        rcases List.mem_cons.mp hdrop with hX | hX
        · rw [← hX] at hc
          rw [hgX] at hc
          cases hc
        · exact hX
    · rename_i hge
      rw [List.drop_eq_nil_of_le (by omega)] at hdrop
      cases hdrop

theorem rmScan_pred (pos : ℚ × ℚ) (P : Poly → Prop) :
    ∀ (fuel : Nat) (polys : List Poly) (i : Nat) (last : Option Poly),
    (∀ p ∈ polys, P p) → (∀ lr, last = some lr → P lr) →
    (∀ p ∈ (rmScan geom pos fuel polys i last).1, P p) ∧
    (∀ lr, (rmScan geom pos fuel polys i last).2 = some lr → P lr) := by
  intro fuel
  induction fuel with
  | zero => intro polys i last h1 h2; exact ⟨h1, h2⟩
  | succ n ih =>
    intro polys i last h1 h2
    simp only [rmScan]
    split
    · rename_i hlt
      split
      · exact ih _ (i + 1) _
          (fun p hp => h1 p (mem_of_mem_erasePolyId hp))
          (fun lr hlr => by
            cases hlr
            exact h1 (polys.get ⟨i, hlt⟩) (polys.get_mem i hlt))
      · exact ih polys (i + 1) last h1 h2
    · exact ⟨h1, h2⟩

theorem rmScan_ids (pos : ℚ × ℚ) :
    ∀ (fuel : Nat) (polys : List Poly) (i : Nat) (last : Option Poly),
    (polys.map Poly.id).Nodup →
    (∀ lr, last = some lr → ∀ p ∈ polys, p.id ≠ lr.id) →
    ((rmScan geom pos fuel polys i last).1.map Poly.id).Nodup ∧
    (∀ lr, (rmScan geom pos fuel polys i last).2 = some lr →
      ∀ p ∈ (rmScan geom pos fuel polys i last).1, p.id ≠ lr.id) := by
  intro fuel
  induction fuel with
  | zero => intro polys i last h1 h2; exact ⟨h1, h2⟩
  | succ n ih =>
    intro polys i last h1 h2
    simp only [rmScan]
    split
    · rename_i hlt
      split
      · exact ih _ (i + 1) _ (nodup_ids_erasePolyId _ h1)
          (fun lr hlr p hp => by
            cases hlr
            exact id_ne_of_mem_erasePolyId h1 p hp)
      · exact ih polys (i + 1) last h1 h2
    · exact ⟨h1, h2⟩

theorem recolorList_map_id (pos : ℚ × ℚ) (k : Nat) (l : List Poly) :
    (recolorList geom pos k l).map Poly.id = l.map Poly.id := by
  induction l with
  | nil => rfl
  | cons p ps ih =>
    simp only [recolorList, List.map_cons]
    split <;> simp [recolor, ih]

theorem recolorList_length (pos : ℚ × ℚ) (k : Nat) (l : List Poly) :
    (recolorList geom pos k l).length = l.length := by
  have h := congrArg List.length (recolorList_map_id geom pos k l)
  simpa using h

theorem recolorList_get (pos : ℚ × ℚ) (k : Nat) (l : List Poly) :
    ∀ (j : Nat) (hj : j < l.length) (hj2 : j < (recolorList geom pos k l).length),
    (recolorList geom pos k l).get ⟨j, hj2⟩ =
      if geom (l.get ⟨j, hj⟩).vertices pos then recolor k (l.get ⟨j, hj⟩)
      else l.get ⟨j, hj⟩ := by
  induction l with
  | nil => intro j hj _; exact absurd hj (by simp)
  | cons p ps ih =>
    intro j hj hj2
    cases j with
    | zero => rfl
    | succ m =>
      simp only [recolorList, List.get_cons_succ]
      exact ih m (by simpa using hj) (by simpa [recolorList] using hj2)

theorem recolorList_colors (pos : ℚ × ℚ) {k : Nat} (hk : k ≤ 9)
    {l : List Poly} (h : ∀ p ∈ l, p.colorIdx ≤ 8) :
    ∀ p ∈ recolorList geom pos k l, p.colorIdx ≤ 8 := by
  induction l with
  | nil => simp [recolorList]
  | cons p ps ih =>
    intro q hq
    rcases List.mem_cons.mp hq with hq | hq
    · subst hq
      split
      · simp only [recolor]
        omega
      · exact h p (List.mem_cons_self p ps)
    · exact ih (fun r hr => h r (List.mem_cons_of_mem p hr)) q hq

theorem move_point_fields (s : PState) (xp yp : ℚ) :
    (move_point s xp yp).polys = s.polys ∧
    (move_point s xp yp).last_removed = s.last_removed ∧
    (move_point s xp yp).nextId = s.nextId ∧
    (move_point s xp yp).current_poly_class = s.current_poly_class := by
  unfold move_point
  split <;> exact ⟨rfl, rfl, rfl, rfl⟩

theorem onrelease_ok_fields {s s' : PState} {ev : Event}
    (h : onrelease s ev = .ok s') :
    s'.polys = s.polys ∧ s'.last_removed = s.last_removed ∧
    s'.nextId = s.nextId ∧ s'.current_poly_class = s.current_poly_class := by
  unfold onrelease at h
  split at h
  · split at h
    · exact absurd h (by simp)
    · split at h
      · injection h with h2
        subst h2
        have hm := move_point_fields s ev.x ev.y
        exact ⟨hm.1, hm.2.1, hm.2.2.1, hm.2.2.2⟩
      · injection h with h2
        subst h2
        exact ⟨rfl, rfl, rfl, rfl⟩
  · split at h
    · injection h with h2; subst h2; exact ⟨rfl, rfl, rfl, rfl⟩
    · split at h
      · injection h with h2; subst h2; exact ⟨rfl, rfl, rfl, rfl⟩
      · split at h
        · injection h with h2; subst h2; exact ⟨rfl, rfl, rfl, rfl⟩
        · injection h with h2; subst h2; exact ⟨rfl, rfl, rfl, rfl⟩

theorem onpick_fields (s : PState) (ev : PickEvent) (dx dy : ℚ) :
    (onpick s ev dx dy).polys = s.polys ∧
    (onpick s ev dx dy).last_removed = s.last_removed ∧
    (onpick s ev dx dy).nextId = s.nextId ∧
    (onpick s ev dx dy).current_poly_class = s.current_poly_class := by
  unfold onpick
  split
  · split
    · exact ⟨rfl, rfl, rfl, rfl⟩
    · split
      · exact ⟨rfl, rfl, rfl, rfl⟩
      · exact ⟨rfl, rfl, rfl, rfl⟩
  · exact ⟨rfl, rfl, rfl, rfl⟩

/-- Identity discipline: live polygon ids are pairwise distinct, all ids
(live and in the slot) are below the freshness counter, and the slot's
polygon is not live. -/
def IdsOk (s : PState) : Prop :=
  (s.polys.map Poly.id).Nodup ∧
  (∀ p ∈ s.polys, p.id < s.nextId) ∧
  (∀ lr, s.last_removed = some lr →
    lr.id < s.nextId ∧ ∀ p ∈ s.polys, p.id ≠ lr.id)

theorem IdsOk_congr {s s' : PState} (hp : s'.polys = s.polys)
    (hl : s'.last_removed = s.last_removed) (hn : s'.nextId = s.nextId)
    (h : IdsOk s) : IdsOk s' := by
  unfold IdsOk at *
  rw [hp, hl, hn]
  exact h

theorem IdsOk_mkpoly {s : PState} (h : IdsOk s) : IdsOk (mkpoly s) := by
  obtain ⟨h1, h2, h3⟩ := h
  unfold mkpoly
  split
  · exact ⟨h1, h2, h3⟩
  · refine ⟨?_, ?_, ?_⟩
    · show ((s.polys ++ [_]).map Poly.id).Nodup
      simp only [List.map_append, List.map_cons, List.map_nil]
      rw [List.nodup_append]
      refine ⟨h1, List.nodup_singleton _, ?_⟩
      intro a ha hb
      simp only [List.mem_singleton] at hb
      subst hb
      rcases List.mem_map.mp ha with ⟨q, hq, hqe⟩
      have := h2 q hq
      omega
    · intro p hp
      rcases List.mem_append.mp hp with hp | hp
      · have := h2 p hp
        show p.id < s.nextId + 1
        omega
      · simp only [List.mem_singleton] at hp
        subst hp
        show s.nextId < s.nextId + 1
        omega
    · intro lr hlr
      obtain ⟨ha, hb⟩ := h3 lr hlr
      refine ⟨by show lr.id < s.nextId + 1; omega, ?_⟩
      intro p hp
      rcases List.mem_append.mp hp with hp | hp
      · exact hb p hp
      · simp only [List.mem_singleton] at hp
        subst hp
        show s.nextId ≠ lr.id
        omega

theorem IdsOk_rmpoly {s : PState} (h : IdsOk s) (ev : Event) :
    IdsOk (rmpoly geom s ev) := by
  obtain ⟨h1, h2, h3⟩ := h
  unfold rmpoly
  split
  · have hA := rmScan_ids geom (ev.x, ev.y) s.polys.length s.polys 0
      s.last_removed h1 (fun lr hlr p hp => (h3 lr hlr).2 p hp)
    have hB := rmScan_pred geom (ev.x, ev.y) (fun p => p.id < s.nextId)
      s.polys.length s.polys 0 s.last_removed h2 (fun lr hlr => (h3 lr hlr).1)
    exact ⟨hA.1, hB.1, fun lr hlr => ⟨hB.2 lr hlr, hA.2 lr hlr⟩⟩
  · exact ⟨h1, h2, h3⟩

theorem mem_id_recolorList {pos : ℚ × ℚ} {k : Nat} {l : List Poly} {q : Poly}
    (hq : q ∈ recolorList geom pos k l) : ∃ r ∈ l, r.id = q.id := by
  have hmem : q.id ∈ l.map Poly.id := by
    rw [← recolorList_map_id geom pos k l]
    exact List.mem_map_of_mem Poly.id hq
  rcases List.mem_map.mp hmem with ⟨r, hr, hre⟩
  exact ⟨r, hr, hre⟩

theorem IdsOk_set_class {s : PState} (h : IdsOk s) (k : Nat) (pos : ℚ × ℚ) :
    IdsOk (set_class geom k pos s) := by
  obtain ⟨h1, h2, h3⟩ := h
  unfold set_class
  cases hlr : s.last_removed with
  | none =>
    simp only [hlr]
    refine ⟨?_, ?_, ?_⟩
    · rw [recolorList_map_id]
      exact h1
    · intro p hp
      rcases mem_id_recolorList geom hp with ⟨r, hr, hre⟩
      show p.id < s.nextId
      rw [← hre]
      exact h2 r hr
    · intro lr hlr2
      exact absurd hlr2 (by simp)
  | some lr =>
    have hfind : (recolorList geom pos k s.polys).find?
        (fun q => q.id == lr.id) = none := by
      apply List.find?_eq_none.mpr
      intro q hq
      simp only [beq_iff_eq]
      rcases mem_id_recolorList geom hq with ⟨r, hr, hre⟩
      rw [← hre]
      exact (h3 lr hlr).2 r hr
    simp only [hlr, hfind, Option.getD_none]
    refine ⟨?_, ?_, ?_⟩
    · rw [recolorList_map_id]
      exact h1
    · intro p hp
      rcases mem_id_recolorList geom hp with ⟨r, hr, hre⟩
      show p.id < s.nextId
      rw [← hre]
      exact h2 r hr
    · intro lr2 hlr2
      have hlr2e : lr2 = lr := by
        have := hlr2
        simp only [Option.some.injEq] at this
        exact this.symm
      subst hlr2e
      refine ⟨(h3 lr2 hlr).1, ?_⟩
      intro p hp
      rcases mem_id_recolorList geom hp with ⟨r, hr, hre⟩
      rw [← hre]
      exact (h3 lr2 hlr).2 r hr

theorem reachableNU_idsOk {t : ℚ} {s : PState}
    (h : ReachableNoUndo geom t s) : IdsOk s := by
  induction h with
  | init =>
    refine ⟨by simp [initState], by simp [initState], by simp [initState]⟩
  | step_release h1 hok ih =>
    have hf := onrelease_ok_fields hok
    exact IdsOk_congr hf.1 hf.2.1 hf.2.2.1 ih
  | step_pick h1 ih =>
    rename_i s1 ev dx dy
    have hf := onpick_fields s1 ev dx dy
    exact IdsOk_congr hf.1 hf.2.1 hf.2.2.1 ih
  | step_key h1 hne ih =>
    rename_i s1 k ev
    cases k with
    | escape => exact IdsOk_congr rfl rfl rfl ih
    | enter => exact IdsOk_mkpoly ih
    | d => exact IdsOk_rmpoly geom ih ev
    | u => exact absurd rfl hne
    | e => exact ih
    | digit k =>
      simp only [complete]
      split
      · exact IdsOk_set_class geom ih k (ev.x, ev.y)
      · exact ih

/-- Color discipline: every live and slot polygon has a face-color index
at most 8, and the class selector is 0 (it is assigned only in
`__init__` and never reassigned anywhere in the source). -/
def ColorsOk (s : PState) : Prop :=
  (∀ p ∈ s.polys, p.colorIdx ≤ 8) ∧
  (∀ lr, s.last_removed = some lr → lr.colorIdx ≤ 8) ∧
  s.current_poly_class = 0

theorem ColorsOk_congr {s s' : PState} (hp : s'.polys = s.polys)
    (hl : s'.last_removed = s.last_removed)
    (hc : s'.current_poly_class = s.current_poly_class)
    (h : ColorsOk s) : ColorsOk s' := by
  unfold ColorsOk at *
  rw [hp, hl, hc]
  exact h

theorem ColorsOk_mkpoly {s : PState} (h : ColorsOk s) : ColorsOk (mkpoly s) := by
  obtain ⟨h1, h2, h3⟩ := h
  unfold mkpoly
  split
  · exact ⟨h1, h2, h3⟩
  · refine ⟨?_, h2, h3⟩
    intro p hp
    rcases List.mem_append.mp hp with hp | hp
    · exact h1 p hp
    · simp only [List.mem_singleton] at hp
      subst hp
      show s.current_poly_class ≤ 8
      omega

theorem ColorsOk_rmpoly {s : PState} (h : ColorsOk s) (ev : Event) :
    ColorsOk (rmpoly geom s ev) := by
  obtain ⟨h1, h2, h3⟩ := h
  unfold rmpoly
  split
  · have hA := rmScan_pred geom (ev.x, ev.y) (fun p => p.colorIdx ≤ 8)
      s.polys.length s.polys 0 s.last_removed h1 (fun lr hlr => h2 lr hlr)
    exact ⟨hA.1, fun lr hlr => hA.2 lr hlr, h3⟩
  · exact ⟨h1, h2, h3⟩

theorem undo_cases (s : PState) :
    undo s = s ∨
    ∃ lr, s.last_removed = some lr ∧
      undo s = { s with polys := s.polys ++ [lr] } := by
  unfold undo
  cases hlr : s.last_removed with
  | none => left; rfl
  | some lr =>
    cases hgl : s.polys.getLast? with
    | none => right; exact ⟨lr, rfl, rfl⟩
    | some q =>
      by_cases hq : q.id = lr.id
      · left; simp [hq]
      · right; exact ⟨lr, rfl, by simp [hq]⟩

theorem undo_append {s : PState} {lr : Poly} (hlr : s.last_removed = some lr)
    (hq : ∀ q, s.polys.getLast? = some q → q.id ≠ lr.id) :
    undo s = { s with polys := s.polys ++ [lr] } := by
  unfold undo
  simp only [hlr]
  cases hgl : s.polys.getLast? with
  | none => rfl
  | some q => simp [hq q hgl]

theorem ColorsOk_undo {s : PState} (h : ColorsOk s) : ColorsOk (undo s) := by
  obtain ⟨h1, h2, h3⟩ := h
  rcases undo_cases s with heq | ⟨lr, hlr, heq⟩
  · rw [heq]
    exact ⟨h1, h2, h3⟩
  · rw [heq]
    have happ : ∀ p ∈ s.polys ++ [lr], p.colorIdx ≤ 8 := by
      intro p hp
      rcases List.mem_append.mp hp with hp | hp
      · exact h1 p hp
      · simp only [List.mem_singleton] at hp
        subst hp
        exact h2 p hlr
    exact ⟨happ, h2, h3⟩

theorem ColorsOk_set_class {s : PState} (h : ColorsOk s) {k : Nat}
    (hk : k ≤ 9) (pos : ℚ × ℚ) : ColorsOk (set_class geom k pos s) := by
  obtain ⟨h1, h2, h3⟩ := h
  unfold set_class
  cases hlr : s.last_removed with
  | none =>
    simp only [hlr]
    exact ⟨recolorList_colors geom pos hk h1, by simp, h3⟩
  | some lr =>
    simp only [hlr]
    refine ⟨recolorList_colors geom pos hk h1, ?_, h3⟩
    intro lr2 hlr2
    simp only [Option.some.injEq] at hlr2
    rw [← hlr2]
    cases hfind : (recolorList geom pos k s.polys).find?
        (fun q => q.id == lr.id) with
    | none =>
      simp only [hfind, Option.getD_none]
      exact h2 lr hlr
    | some q =>
      simp only [hfind, Option.getD_some]
      exact recolorList_colors geom pos hk h1 q
        (List.mem_of_find?_eq_some hfind)

theorem reachable_colorsOk {t : ℚ} {s : PState}
    (h : Reachable geom t s) : ColorsOk s := by
  induction h with
  | init =>
    refine ⟨by simp [initState], by simp [initState], rfl⟩
  | step_release h1 hok ih =>
    have hf := onrelease_ok_fields hok
    exact ColorsOk_congr hf.1 hf.2.1 hf.2.2.2 ih
  | step_pick h1 ih =>
    rename_i s1 ev dx dy
    have hf := onpick_fields s1 ev dx dy
    exact ColorsOk_congr hf.1 hf.2.1 hf.2.2.2 ih
  | step_key h1 ih =>
    rename_i s1 k ev
    cases k with
    | escape => exact ColorsOk_congr rfl rfl rfl ih
    | enter => exact ColorsOk_mkpoly ih
    | d => exact ColorsOk_rmpoly geom ih ev
    | u => exact ColorsOk_undo ih
    | e => exact ih
    | digit k =>
      simp only [complete]
      split
      · rename_i hg
        exact ColorsOk_set_class geom ih hg.2 (ev.x, ev.y)
      · exact ih

theorem foldl_label_le {pt : ℚ × ℚ} {l : List Poly}
    (h : ∀ p ∈ l, p.colorIdx ≤ 8) :
    ∀ acc : Nat, acc ≤ 9 →
    l.foldl (fun acc p => if geom p.vertices pt then polyLabel p else acc)
      acc ≤ 9 := by
  induction l with
  | nil => intro acc ha; simpa using ha
  | cons p ps ih =>
    intro acc ha
    simp only [List.foldl_cons]
    apply ih (fun q hq => h q (List.mem_cons_of_mem p hq))
    split
    · have := h p (List.mem_cons_self p ps)
      simp only [polyLabel]
      omega
    · exact ha

theorem rasterCell_le {pt : ℚ × ℚ} {polys : List Poly}
    (h : ∀ p ∈ polys, p.colorIdx ≤ 8) : rasterCell geom polys pt ≤ 9 :=
  foldl_label_le geom h 0 (by omega)

theorem foldl_label_id {pt : ℚ × ℚ} {l : List Poly}
    (h : ∀ p ∈ l, geom p.vertices pt = false) :
    ∀ acc : Nat,
    l.foldl (fun acc p => if geom p.vertices pt then polyLabel p else acc)
      acc = acc := by
  induction l with
  | nil => intro acc; rfl
  | cons p ps ih =>
    intro acc
    simp only [List.foldl_cons]
    rw [h p (List.mem_cons_self p ps)]
    simp only [Bool.false_eq_true, if_false]
    exact ih (fun q hq => h q (List.mem_cons_of_mem p hq)) acc

theorem rasterCell_zero {pt : ℚ × ℚ} {polys : List Poly}
    (h : ∀ p ∈ polys, geom p.vertices pt = false) :
    rasterCell geom polys pt = 0 :=
  foldl_label_id geom h 0

theorem raster_length (rows cols : Nat) (polys : List Poly) :
    (raster geom rows cols polys).length = rows := by
  simp [raster]

theorem raster_row_length {rows cols : Nat} {polys : List Poly}
    {row : List Nat} (h : row ∈ raster geom rows cols polys) :
    row.length = cols := by
  simp only [raster, List.mem_map] at h
  rcases h with ⟨r, _, hrow⟩
  rw [← hrow]
  simp

end Lemmas

/-! Concrete scenario data used by the claim theorems.  `cA`/`cB` are the
polygons created by committing a one-point buffer at (1, 1) and then at
(2, 2); the states below arise from the event chains spelled out in the
corresponding theorems. -/

/-- Polygon created by the first commit in the scenario chains. -/
def cA : Poly := ⟨0, 0, [(1, 1)]⟩

/-- Polygon created by the second commit in the scenario chains. -/
def cB : Poly := ⟨1, 0, [(2, 2)]⟩

/-- State after one release at (1, 1) from the initial state. -/
def sOne : PState := { initState 1 with x := [1], y := [1] }

/-- State after commit of `cA` and a release at (2, 2). -/
def sTwoBuf : PState :=
  { initState 1 with x := [2], y := [2], polys := [cA], nextId := 1 }

/-- State with `cA` and `cB` live (after the two commits). -/
def sAB : PState := { initState 1 with polys := [cA, cB], nextId := 2 }

/-- State after additionally deleting at (1, 1): `cA` removed into the
slot, `cB` live. -/
def sC7 : PState :=
  { initState 1 with polys := [cB], last_removed := some cA, nextId := 2 }

/-- State after commit, delete at (1, 1) and undo: the slot polygon `cA`
is live again while the slot still holds it. -/
def sUndone : PState := { initState 1 with polys := [cA], last_removed := some cA, nextId := 1 }

/-- State with a two-point buffer (two releases from the initial state). -/
def sBuf2 : PState := { initState 1 with x := [0, 1], y := [0, 1] }

/-- Three polygons whose regions (under `geomMem`) all contain (9, 9). -/
def pA : Poly := ⟨0, 0, [(9, 9), (1, 1)]⟩

/-- Second polygon containing (9, 9), with face-color index 4 (label 5). -/
def pD : Poly := ⟨1, 4, [(9, 9), (2, 2)]⟩

/-- Third polygon containing (9, 9), with face-color index 7 (label 8). -/
def pE : Poly := ⟨2, 7, [(9, 9), (3, 3)]⟩

/-- Variant of `pD` with face-color index 0, as produced by a commit. -/
def pB : Poly := ⟨1, 0, [(9, 9), (2, 2)]⟩

/-- Variant of `pE` with face-color index 0, as produced by a commit. -/
def pC : Poly := ⟨2, 0, [(9, 9), (3, 3)]⟩

/-- State with the three overlapping polygons `pA`, `pB`, `pC` live. -/
def sABC : PState := { initState 1 with polys := [pA, pB, pC], nextId := 3 }

/-- C1, counterexample: a two-point buffer is reachable by two releases,
has fewer than 3 vertices, and yet `mkpoly` (key enter / commit) creates
a polygon, growing the annotation set from 0 to 1. -/
theorem C1_counterexample :
    (onrelease (initState 1) (relEv 0 0)).bind
      (fun s => onrelease s (relEv 1 1)) = .ok sBuf2 ∧
    sBuf2.x.length = 2 ∧ sBuf2.polys.length = 0 ∧
    (mkpoly sBuf2).polys.length = 1 := by
  refine ⟨by decide, by decide, by decide, by decide⟩

/-- C1, amended: `mkpoly` is a no-op exactly when the point buffer is
empty; any non-empty buffer — even with only 1 or 2 vertices — creates a
polygon and grows the annotation set by one. -/
theorem C1_commit_amended (s : PState) :
    (s.x = [] → mkpoly s = s) ∧
    (s.x ≠ [] → (mkpoly s).polys.length = s.polys.length + 1) := by
  constructor
  · intro h
    unfold mkpoly
    rw [if_pos (by simp [h])]
  · intro h
    unfold mkpoly
    rw [if_neg (by simpa using h)]
    simp [clear]

/-- C1, witness for the amended commit behavior at concrete states. -/
theorem C1_commit_amended_witness :
    mkpoly (initState 1) = initState 1 ∧
    (mkpoly sBuf2).polys.length = sBuf2.polys.length + 1 :=
  ⟨(C1_commit_amended (initState 1)).1 rfl,
   (C1_commit_amended sBuf2).2 (by decide)⟩

/-- C2, code bug: with three polygons `pA`, `pB`, `pC` (committed in that
order) all containing the query point (9, 9), the delete handler
`rmpoly` removes the first AND the third polygon (the iteration skips an
element after each in-place removal) and stores the third, not the
first, in the last-removed slot; the claim says only the first match is
removed. -/
theorem C2_removeAt_skips :
    geomMem pA.vertices (9, 9) = true ∧
    geomMem pB.vertices (9, 9) = true ∧
    geomMem pC.vertices (9, 9) = true ∧
    (rmpoly geomMem sABC (relEv 9 9)).polys = [pB] ∧
    (rmpoly geomMem sABC (relEv 9 9)).last_removed = some pC := by
  refine ⟨by decide, by decide, by decide, by decide, by decide⟩

/-- C3, counterexample: after commit of `cA`, delete at (1, 1) and undo,
the slot still holds `cA` while `cA` is live again — the claimed
invariant fails in a reachable state because `undo` never clears the
slot. -/
theorem C3_counterexample :
    complete geomMem (complete geomMem (complete geomMem sOne Key.enter
        (relEv 1 1)) Key.d (relEv 1 1)) Key.u (relEv 1 1) = sUndone ∧
    sUndone.last_removed = some cA ∧ cA ∈ sUndone.polys ∧
    onrelease (initState 1) (relEv 1 1) = .ok sOne := by
  refine ⟨by decide, by decide, by decide, by decide⟩

/-- C3, amended: the slot/live disjointness invariant does hold in every
state reachable without the undo key: commit, delete, reclassify and the
drawing handlers preserve it; `undo` breaks it by re-adding the slot's
polygon while leaving the slot populated. -/
theorem C3_invariant_noUndo (geom : List (ℚ × ℚ) → ℚ × ℚ → Bool) (t : ℚ)
    (s : PState) (h : ReachableNoUndo geom t s) :
    ∀ lr, s.last_removed = some lr → ∀ p ∈ s.polys, p.id ≠ lr.id :=
  fun lr hlr p hp => ((reachableNU_idsOk geom h).2.2 lr hlr).2 p hp

/-- C3, witness: the invariant theorem applied to the concrete reachable
state with `cB` live and `cA` in the slot. -/
theorem C3_invariant_noUndo_witness : cB.id ≠ cA.id := by
  have h0 : ReachableNoUndo geomMem 1 (initState 1) := .init
  have h1 : ReachableNoUndo geomMem 1 sOne :=
    @ReachableNoUndo.step_release geomMem 1 (initState 1) sOne (relEv 1 1)
      h0 (by decide)
  have h2 : ReachableNoUndo geomMem 1
      (complete geomMem sOne Key.enter (relEv 1 1)) :=
    @ReachableNoUndo.step_key geomMem 1 sOne Key.enter (relEv 1 1) h1
      (by decide)
  have h3 : ReachableNoUndo geomMem 1 sTwoBuf :=
    @ReachableNoUndo.step_release geomMem 1
      (complete geomMem sOne Key.enter (relEv 1 1)) sTwoBuf (relEv 2 2) h2
      (by decide)
  have h4 : ReachableNoUndo geomMem 1
      (complete geomMem sTwoBuf Key.enter (relEv 2 2)) :=
    @ReachableNoUndo.step_key geomMem 1 sTwoBuf Key.enter (relEv 2 2) h3
      (by decide)
  have h5 : ReachableNoUndo geomMem 1
      (complete geomMem (complete geomMem sTwoBuf Key.enter (relEv 2 2))
        Key.d (relEv 1 1)) :=
    @ReachableNoUndo.step_key geomMem 1
      (complete geomMem sTwoBuf Key.enter (relEv 2 2)) Key.d (relEv 1 1)
      h4 (by decide)
  have heq : complete geomMem (complete geomMem sTwoBuf Key.enter
      (relEv 2 2)) Key.d (relEv 1 1) = sC7 := by decide
  exact C3_invariant_noUndo geomMem 1 sC7 (heq ▸ h5) cA (by decide) cB
    (by decide)

/-- C4, counterexample: with no polygon at the key position, digit key 5
does not set the current-class selector to 5 — the selector is never
assigned anywhere after `__init__`, so it stays 0. -/
theorem C4_counterexample :
    (initState 1).polys = [] ∧
    (complete geomMem (initState 1) (Key.digit 5) (relEv 0 0)).current_poly_class = 0 ∧
    ¬ (complete geomMem (initState 1) (Key.digit 5)
        (relEv 0 0)).current_poly_class = 5 := by
  refine ⟨by decide, by decide, by decide⟩

/-- C4, amended: a digit key k in 1..9 recolors every polygon containing
the key position to class k (face-color index k−1) and leaves every
other polygon and the current-class selector unchanged; the selector is
never set by the digit key. -/
theorem C4_digit_amended (geom : List (ℚ × ℚ) → ℚ × ℚ → Bool) (s : PState)
    (k : Nat) (ev : Event) (h1 : 1 ≤ k) (h9 : k ≤ 9) :
    (complete geom s (Key.digit k) ev).current_poly_class =
      s.current_poly_class ∧
    (complete geom s (Key.digit k) ev).polys.length = s.polys.length ∧
    ∀ (j : Nat) (hj : j < s.polys.length)
      (hj2 : j < (complete geom s (Key.digit k) ev).polys.length),
      (complete geom s (Key.digit k) ev).polys.get ⟨j, hj2⟩ =
        if geom (s.polys.get ⟨j, hj⟩).vertices (ev.x, ev.y) then
          recolor k (s.polys.get ⟨j, hj⟩)
        else s.polys.get ⟨j, hj⟩ := by
  have hg : 1 ≤ k ∧ k ≤ 9 := ⟨h1, h9⟩
  simp only [complete]
  rw [if_pos hg]
  refine ⟨rfl, recolorList_length geom (ev.x, ev.y) k s.polys, ?_⟩
  intro j hj hj2
  exact recolorList_get geom (ev.x, ev.y) k s.polys j hj hj2

/-- C4, witness for the amended digit-key behavior at a concrete state. -/
theorem C4_digit_amended_witness :
    (complete geomMem sABC (Key.digit 5) (relEv 0 0)).current_poly_class =
      sABC.current_poly_class ∧
    (complete geomMem sABC (Key.digit 5) (relEv 0 0)).polys.length =
      sABC.polys.length :=
  ⟨(C4_digit_amended geomMem sABC 5 (relEv 0 0) (by decide) (by decide)).1,
   (C4_digit_amended geomMem sABC 5 (relEv 0 0) (by decide)
     (by decide)).2.1⟩

/-- C5, counterexample: the claim quantifies over every earlier/later
pair, but with three stacked polygons `pA`, `pD`, `pE` (all containing
the cell, committed in that order) the pair (A := `pA`, B := `pD`)
violates it: the rasterized value is `pE`'s label 8, not `pD`'s label
5. -/
theorem C5_counterexample :
    geomMem pA.vertices (9, 9) = true ∧
    geomMem pD.vertices (9, 9) = true ∧
    rasterCell geomMem [pA, pD, pE] (9, 9) = 8 ∧
    ¬ rasterCell geomMem [pA, pD, pE] (9, 9) = polyLabel pD := by
  refine ⟨by decide, by decide, by decide, by decide⟩

/-- C5, amended: rasterization applies polygons in creation order, so for
polygons A (at index i) committed before B (at index j), a cell contained
in both gets B's class label provided no polygon committed after B also
contains the cell (last-committed-wins). -/
theorem C5_last_wins_amended (geom : List (ℚ × ℚ) → ℚ × ℚ → Bool)
    (polys : List Poly) (pt : ℚ × ℚ) (i j : Nat) (hij : i < j)
    (hi : i < polys.length) (hj : j < polys.length)
    (hA : geom (polys.get ⟨i, hi⟩).vertices pt = true)
    (hB : geom (polys.get ⟨j, hj⟩).vertices pt = true)
    (hafter : ∀ (m : Nat) (hm : m < polys.length), j < m →
      geom (polys.get ⟨m, hm⟩).vertices pt = false) :
    rasterCell geom polys pt = polyLabel (polys.get ⟨j, hj⟩) := by
  have hdrop : ∀ p ∈ polys.drop (j + 1), geom p.vertices pt = false := by
    intro q hq
    rcases List.mem_iff_getElem.mp hq with ⟨m, hm, hqe⟩
    rw [List.getElem_drop] at hqe
    have hm2 : j + 1 + m < polys.length := by
      rw [List.length_drop] at hm
      omega
    rw [← hqe]
    have hf := hafter (j + 1 + m) hm2 (by omega)
    simpa [List.get_eq_getElem] using hf
  conv_lhs => rw [← List.take_append_drop (j + 1) polys]
  unfold rasterCell
  rw [List.foldl_append]
  rw [foldl_label_id geom hdrop]
  rw [List.take_succ]
  rw [List.getElem?_eq_getElem hj]
  simp only [Option.toList_some]
  rw [List.foldl_append]
  simp only [List.foldl_cons, List.foldl_nil]
  have hB2 : geom (polys[j]).vertices pt = true := hB
  rw [hB2]
  simp [List.get_eq_getElem]

/-- C5, witness for the amended overlap law on two stacked polygons. -/
theorem C5_last_wins_amended_witness :
    rasterCell geomMem [pA, pD] (9, 9) = polyLabel pD := by
  have h := C5_last_wins_amended geomMem [pA, pD] (9, 9) 0 1 (by decide)
    (by decide) (by decide) (by decide) (by decide) ?_
  · exact h
  · intro m hm hgt
    simp only [List.length_cons, List.length_nil] at hm
    exact absurd hgt (by omega)

/-- C6, confirmed: for every reachable annotation state and grid shape,
the exported raster has exactly rows x cols cells, every cell value is at
most 9 (face-color indices stay at most 8 in reachable states, so labels
stay in 1..9), and cells contained in no polygon are 0. -/
theorem C6_raster_bounds (geom : List (ℚ × ℚ) → ℚ × ℚ → Bool) (t : ℚ)
    (s : PState) (h : Reachable geom t s) (rows cols : Nat) :
    (raster geom rows cols s.polys).length = rows ∧
    (∀ row ∈ raster geom rows cols s.polys, row.length = cols) ∧
    (∀ pt : ℚ × ℚ, rasterCell geom s.polys pt ≤ 9) ∧
    (∀ pt : ℚ × ℚ, (∀ p ∈ s.polys, geom p.vertices pt = false) →
      rasterCell geom s.polys pt = 0) := by
  obtain ⟨h1, -, -⟩ := reachable_colorsOk geom h
  exact ⟨raster_length geom rows cols s.polys,
    fun row hrow => raster_row_length geom hrow,
    fun pt => rasterCell_le geom h1,
    fun pt hnone => rasterCell_zero geom hnone⟩

/-- C6, witness at the initial (reachable) state with a 2 x 3 grid. -/
theorem C6_raster_bounds_witness :
    (raster geomMem 2 3 (initState 1).polys).length = 2 ∧
    rasterCell geomMem (initState 1).polys (0, 0) = 0 :=
  ⟨(C6_raster_bounds geomMem 1 (initState 1) Reachable.init 2 3).1,
   (C6_raster_bounds geomMem 1 (initState 1) Reachable.init 2 3).2.2.2
     (0, 0) (by simp [initState])⟩

/-- C7, counterexample: in the reachable state `sC7` (live `cB`, stale
slot `cA`), a delete at a point contained in no polygon followed by undo
appends the stale `cA`, so the round trip does not restore the previous
annotation set. -/
theorem C7_counterexample :
    (undo (rmpoly geomMem sC7 (relEv 5 5))).polys = [cB, cA] ∧
    ¬ (undo (rmpoly geomMem sC7 (relEv 5 5))).polys.Perm sC7.polys := by
  refine ⟨by decide, by decide⟩

/-- C7, amended: when the live polygons have pairwise distinct identities
and exactly one live polygon contains the query point, delete followed
immediately by undo restores an equivalent annotation set (a permutation
of the previous polygons) with the removed polygon re-added at the end
(most-recent position).  In general the round trip can instead append a
stale previously-removed polygon (no polygon contains the point) or lose
polygons (the delete scan removed more than one). -/
theorem C7_remove_undo_amended (geom : List (ℚ × ℚ) → ℚ × ℚ → Bool)
    (s : PState) (ev : Event) (X : Poly)
    (hAx : ev.inAxes = true)
    (hN : (s.polys.map Poly.id).Nodup)
    (hX : X ∈ s.polys)
    (hgX : geom X.vertices (ev.x, ev.y) = true)
    (huniq : ∀ p ∈ s.polys, geom p.vertices (ev.x, ev.y) = true → p = X) :
    (undo (rmpoly geom s ev)).polys.Perm s.polys ∧
    (undo (rmpoly geom s ev)).polys.getLast? = some X := by
  have hscan := rmScan_unique geom (ev.x, ev.y) X hgX s.polys.length
    s.polys 0 s.last_removed (by omega) hN (by simpa using hX) huniq
  have hrm : rmpoly geom s ev = { s with polys := erasePolyId s.polys X.id, last_removed := some X } := by
    unfold rmpoly
    rw [if_pos hAx]
    rw [hscan]
  rw [hrm]
  have hu : undo { s with polys := erasePolyId s.polys X.id, last_removed := some X } = { s with polys := erasePolyId s.polys X.id ++ [X], last_removed := some X } := by
    apply undo_append rfl
    intro q hq
    exact id_ne_of_mem_erasePolyId hN q (List.mem_of_mem_getLast? hq)
  rw [hu]
  constructor
  · have hperm := perm_cons_erasePolyId hN hX
    have hcomm : (erasePolyId s.polys X.id ++ [X]).Perm
        (X :: erasePolyId s.polys X.id) := List.perm_append_comm
    exact hcomm.trans hperm.symm
  · exact List.getLast?_concat _

/-- C7, witness: the amended round trip at the reachable two-polygon
state `sAB`, deleting at (1, 1) which only `cA` contains. -/
theorem C7_remove_undo_amended_witness :
    (undo (rmpoly geomMem sAB (relEv 1 1))).polys.Perm sAB.polys ∧
    (undo (rmpoly geomMem sAB (relEv 1 1))).polys.getLast? = some cA :=
  C7_remove_undo_amended geomMem sAB (relEv 1 1) cA (by decide) (by decide)
    (by decide) (by decide) (by decide)

/-- C8, confirmed: undo is idempotent — a second undo with no removal in
between never changes the live collection, because the re-added polygon
is now the most recently added one and the identity guard fires (or the
first undo was already a no-op). -/
theorem C8_undo_idempotent (s : PState) :
    (undo (undo s)).polys = (undo s).polys := by
  rcases undo_cases s with heq | ⟨lr, hlr, heq⟩
  · rw [heq, heq]
  · rw [heq]
    have h2 : undo { s with polys := s.polys ++ [lr] } =
        { s with polys := s.polys ++ [lr] } := by
      unfold undo
      simp [hlr, List.getLast?_concat]
    rw [h2]

/-- C9, counterexample: for an input path with a directory component the
exported path is the prefix prepended to the whole path, not to its
basename as the claim states. -/
theorem C9_counterexample :
    outputPath "labelmade-" "data/a.sgy" = "labelmade-data/a.sgy" ∧
    outputPathSpec "labelmade-" "data/a.sgy" = "labelmade-a.sgy" ∧
    ¬ outputPath "labelmade-" "data/a.sgy" =
        outputPathSpec "labelmade-" "data/a.sgy" := by
  refine ⟨by rfl, by decide, by decide⟩

/-- C9, amended: the exported path is the prefix concatenated with the
input path exactly as given; it agrees with the spec's
prefix-plus-basename rule only when the input path has no directory
components (its basename is itself). -/
theorem C9_path_amended (pre fname : String)
    (h : basenameOf fname = fname) :
    outputPath pre fname = outputPathSpec pre fname := by
  unfold outputPath outputPathSpec
  rw [h]

/-- C9, witness: for a bare filename the two path rules agree. -/
theorem C9_path_amended_witness :
    basenameOf "a.sgy" = "a.sgy" ∧
    outputPath "labelmade-" "a.sgy" = outputPathSpec "labelmade-" "a.sgy" :=
  ⟨by decide, C9_path_amended "labelmade-" "a.sgy" (by decide)⟩

/-- C10, confirmed: from the initial state, append one vertex at (0, 0),
then pick the line with the pointer at (10, 10) and axis spans 1 — the
nearest-vertex squared distance 200 is not within the tolerance (squared
threshold 1), so `current_point` is never assigned, yet `pick` was set
before the tolerance check; the following release then reads the
never-assigned `current_point` attribute, the AttributeError branch. -/
theorem C10_release_error :
    (onrelease (initState 1) (relEv 0 0)).bind
      (fun s1 => onrelease (onpick s1 { onLine := true, x := 10, y := 10 }
        1 1) (relEv 5 5)) = .error () := by
  with_unfolding_all decide

end Labelmaker
